import Mathlib

/-!
Verification development for the incident-recording service in `src/app.py`.

The embedding models the JSON-like Python values that flow through the
service (`request.headers` dictionaries, `request.get_json()` results,
`json.loads` of the stored columns) as the inductive type `JVal`, and
translates the core routines of `app.py`:

  * `create_hash`            (app.py lines 21-35)
  * `ProblemsResource.post`  ingestion normalization (lines 39-40)
  * `FindResource.post`      match predicate and result loop (lines 75-99)
  * `Find2Resource.get`      fingerprint lookup (lines 101-118)

Modelling conventions, noted once here:
  * JSON numbers are modelled as integers; the claims under study do not
    involve floating-point values.
  * Python dictionaries are modelled as association lists of
    `String × JVal`; real Python dicts never hold duplicate keys, so
    claims that need uniqueness carry explicit `Nodup` hypotheses.
  * `hashlib.sha256(...).hexdigest()` is implemented in full (FIPS 180-4)
    over `Nat` with explicit `% 2^32` wrap-around.
  * `str.lower()` is modelled on the ASCII range, which covers HTTP
    header names; `json.dumps(..., ensure_ascii=True)` escaping is
    modelled including surrogate-pair `\uXXXX` escapes.
  * the storage round trip `json.loads(json.dumps(d))` is the identity at
    the document level, so stored incidents carry documents directly.
-/

/-- JSON-like values as produced by Python's `json.loads` and by request
parsing in `app.py`.  Numbers are modelled as integers. -/
inductive JVal where
  | null
  | bool (b : Bool)
  | num (n : Int)
  | str (s : String)
  | arr (elems : List JVal)
  | obj (entries : List (String × JVal))

/-- Python dictionary read `d[k]` / `k in d`, on the association-list model:
the value at the first occurrence of key `k`, if any. -/
def lookupKey (k : String) : List (String × JVal) → Option JVal
  | [] => none
  | p :: rest => if p.1 == k then some p.2 else lookupKey k rest

/-- Boolean check that the keys of an association list are pairwise
distinct (always true of a real Python dictionary). -/
def keysNodup : List (String × JVal) → Bool
  | [] => true
  | p :: rest => !(rest.any fun q => q.1 == p.1) && keysNodup rest

/-- Hexadecimal digit characters, lowercase, as Python produces them. -/
def hexDigitChar (n : Nat) : Char :=
  if n < 10 then Char.ofNat (48 + n % 10) else Char.ofNat (87 + n % 16)

/-- Four-hex-digit `\uXXXX` escape used by `json.dumps` (`ensure_ascii`). -/
def uEscape (n : Nat) : String :=
  "\\u" ++ String.mk [hexDigitChar (n / 4096 % 16), hexDigitChar (n / 256 % 16),
    hexDigitChar (n / 16 % 16), hexDigitChar (n % 16)]

/-- Escape of one character inside a JSON string literal, following
`json.dumps` with its default `ensure_ascii=True`: `"` and `\` and the
named control escapes, `\uXXXX` for other controls and all non-ASCII
characters, surrogate pairs above `U+FFFF`. -/
def escapeChar (c : Char) : String :=
  let n := c.toNat
  if n = 34 then "\\\""
  else if n = 92 then "\\\\"
  else if n = 8 then "\\b"
  else if n = 9 then "\\t"
  else if n = 10 then "\\n"
  else if n = 12 then "\\f"
  else if n = 13 then "\\r"
  else if 32 ≤ n ∧ n ≤ 126 then String.mk [c]
  else if n < 65536 then uEscape n
  else uEscape (55296 + (n - 65536) / 1024) ++ uEscape (56320 + (n - 65536) % 1024)

/-- JSON string literal for `s`, as `json.dumps` renders it. -/
def jsonQuote (s : String) : String :=
  "\"" ++ String.join (s.data.map escapeChar) ++ "\""

/-- Escape of one character inside a Python `repr` string literal with
quote character `q`: backslash, the quote, `\n`, `\r`, `\t`, and `\xXX`
for the remaining ASCII control characters.  (Python additionally escapes
non-printable non-ASCII characters; those do not occur in the claims.) -/
def pyReprChar (q c : Char) : String :=
  if c = '\\' then "\\\\"
  else if c = q then "\\" ++ String.mk [q]
  else if c = '\n' then "\\n"
  else if c = '\r' then "\\r"
  else if c = '\t' then "\\t"
  else if c.toNat < 32 ∨ c.toNat = 127 then
    "\\x" ++ String.mk [hexDigitChar (c.toNat / 16 % 16), hexDigitChar (c.toNat % 16)]
  else String.mk [c]

/-- Python `repr` of a string: single-quoted, except double-quoted when the
string contains `'` but no `"`. -/
def pyReprStr (s : String) : String :=
  let q : Char := if s.data.contains '\'' ∧ ¬ s.data.contains '"' then '"' else '\''
  String.mk [q] ++ String.join (s.data.map (pyReprChar q)) ++ String.mk [q]

mutual

/-- Python `repr` of a `JVal`, as used by `str` on containers:
`repr(None) = "None"`, `repr(True) = "True"`, lists as `[e1, e2]`,
dictionaries as `\x7b'k': v\x7d`, strings quoted. -/
def pyRepr : JVal → String
  | .null => "None"
  | .bool true => "True"
  | .bool false => "False"
  | .num n => toString n
  | .str s => pyReprStr s
  | .arr xs => "[" ++ pyReprElems xs ++ "]"
  | .obj ps => "\x7b" ++ pyReprEntries ps ++ "\x7d"

/-- Comma-space separated `repr`s of list elements. -/
def pyReprElems : List JVal → String
  | [] => ""
  | x :: rest => pyRepr x ++ (match rest with | [] => "" | _ => ", ") ++ pyReprElems rest

/-- Comma-space separated `'key': value` renderings of dictionary items. -/
def pyReprEntries : List (String × JVal) → String
  | [] => ""
  | (k, v) :: rest =>
    pyReprStr k ++ ": " ++ pyRepr v ++ (match rest with | [] => "" | _ => ", ") ++
      pyReprEntries rest

end

/-- Python `str()` of a `JVal`: the string itself for strings, `repr`
otherwise (`str` and `repr` agree on numbers, booleans, `None`, and
containers).  This is the coercion used at app.py lines 86-87 and the
non-dict fallback of `create_hash` (lines 27 and 32). -/
def pyStr : JVal → String
  | .str s => s
  | v => pyRepr v

/-- Lexicographic comparison of character lists by code point: exactly
Python's string ordering, which `sorted` and `sort_keys=True` use. -/
def charListLe : List Char → List Char → Bool
  | [], _ => true
  | _ :: _, [] => false
  | a :: as, b :: bs =>
    if a.toNat < b.toNat then true
    else if b.toNat < a.toNat then false
    else charListLe as bs

/-- Python string `<=`, by code points. -/
def strLeB (a b : String) : Bool := charListLe a.data b.data

/-- Ordering on serialized object entries: compare the raw (unescaped)
keys, as Python's `sorted(dict.items())` does for distinct keys. -/
def keyle (p q : String × String) : Prop := strLeB p.1 q.1 = true

instance : DecidableRel keyle := fun p q => inferInstanceAs (Decidable (strLeB p.1 q.1 = true))

theorem charListLe_cons {a b : Char} {as bs : List Char} :
    charListLe (a :: as) (b :: bs) = true ↔
      a.toNat < b.toNat ∨ (a.toNat = b.toNat ∧ charListLe as bs = true) := by
  simp only [charListLe]
  by_cases hab : a.toNat < b.toNat
  · simp [hab]
  · by_cases hba : b.toNat < a.toNat
    · simp [hab, hba]; omega
    · simp [hab, hba]; omega

theorem charListLe_total : ∀ as bs, charListLe as bs = true ∨ charListLe bs as = true := by
  intro as
  induction as with
  | nil => intro bs; left; rfl
  | cons a as ih =>
    intro bs
    cases bs with
    | nil => right; rfl
    | cons b bs =>
      rw [charListLe_cons, charListLe_cons]
      rcases Nat.lt_trichotomy a.toNat b.toNat with h | h | h
      · exact Or.inl (Or.inl h)
      · rcases ih bs with h' | h'
        · exact Or.inl (Or.inr ⟨h, h'⟩)
        · exact Or.inr (Or.inr ⟨h.symm, h'⟩)
      · exact Or.inr (Or.inl h)

theorem charListLe_trans :
    ∀ as bs cs, charListLe as bs = true → charListLe bs cs = true →
      charListLe as cs = true := by
  intro as
  induction as with
  | nil => intro bs cs _ _; rfl
  | cons a as ih =>
    intro bs cs h1 h2
    cases bs with
    | nil => simp [charListLe] at h1
    | cons b bs =>
      cases cs with
      | nil => simp [charListLe] at h2
      | cons c cs =>
        rw [charListLe_cons] at h1 h2 ⊢
        rcases h1 with h1 | ⟨h1e, h1r⟩
        · rcases h2 with h2 | ⟨h2e, _⟩
          · exact Or.inl (Nat.lt_trans h1 h2)
          · exact Or.inl (h2e ▸ h1)
        · rcases h2 with h2 | ⟨h2e, h2r⟩
          · exact Or.inl (h1e ▸ h2)
          · exact Or.inr ⟨h1e.trans h2e, ih bs cs h1r h2r⟩

/-- Characters with equal code points are equal. -/
theorem charEqOfToNat {a b : Char} (h : a.toNat = b.toNat) : a = b :=
  Char.eq_of_val_eq (UInt32.eq_of_toBitVec_eq (BitVec.eq_of_toNat_eq h))

theorem charListLe_antisymm :
    ∀ as bs, charListLe as bs = true → charListLe bs as = true → as = bs := by
  intro as
  induction as with
  | nil =>
    intro bs _ h2
    cases bs with
    | nil => rfl
    | cons b bs => simp [charListLe] at h2
  | cons a as ih =>
    intro bs h1 h2
    cases bs with
    | nil => simp [charListLe] at h1
    | cons b bs =>
      rw [charListLe_cons] at h1 h2
      rcases h1 with h1 | ⟨h1e, h1r⟩
      · rcases h2 with h2 | ⟨h2e, _⟩
        · omega
        · omega
      · rcases h2 with h2 | ⟨_, h2r⟩
        · omega
        · rw [charEqOfToNat h1e, ih bs h1r h2r]

instance : IsTotal (String × String) keyle :=
  ⟨fun a b => charListLe_total a.1.data b.1.data⟩

instance : IsTrans (String × String) keyle :=
  ⟨fun _ _ _ h1 h2 => charListLe_trans _ _ _ h1 h2⟩

theorem strLeB_antisymm {a b : String} (h1 : strLeB a b = true) (h2 : strLeB b a = true) :
    a = b := by
  cases a; cases b
  exact congrArg String.mk (charListLe_antisymm _ _ h1 h2)

/-- Sort serialized object entries by key (Python's `sort_keys=True`). -/
def sortPairs (l : List (String × String)) : List (String × String) :=
  List.insertionSort keyle l

mutual

/-- The canonical serialization `json.dumps(v, sort_keys=True,
separators=(',', ':'))` used by `create_hash` (app.py lines 25 and 30):
no insignificant whitespace, object keys sorted lexicographically at
every nesting level, list order preserved. -/
def dumps : JVal → String
  | .null => "null"
  | .bool true => "true"
  | .bool false => "false"
  | .num n => toString n
  | .str s => jsonQuote s
  | .arr xs => "[" ++ dumpsElems xs ++ "]"
  | .obj ps => "\x7b" ++ String.intercalate "," ((sortPairs (entryPairs ps)).map Prod.snd) ++ "\x7d"

/-- Comma-separated serializations of list elements, order preserved. -/
def dumpsElems : List JVal → String
  | [] => ""
  | x :: rest => dumps x ++ (match rest with | [] => "" | _ => ",") ++ dumpsElems rest

/-- Object entries paired with their serialized `"key":value` text; the
raw key is kept alongside so that entries can be sorted by key. -/
def entryPairs : List (String × JVal) → List (String × String)
  | [] => []
  | (k, v) :: rest => (k, jsonQuote k ++ ":" ++ dumps v) :: entryPairs rest

end

/-- UTF-8 encoding of one character, as Python's `str.encode('utf-8')`
produces for each code point. -/
def utf8Char (c : Char) : List Nat :=
  let n := c.toNat
  if n < 128 then [n]
  else if n < 2048 then [192 + n / 64, 128 + n % 64]
  else if n < 65536 then [224 + n / 4096, 128 + n / 64 % 64, 128 + n % 64]
  else [240 + n / 262144, 128 + n / 4096 % 64, 128 + n / 64 % 64, 128 + n % 64]

/-- UTF-8 encoding of a string as a byte list (`combined.encode('utf-8')`
at app.py line 35). -/
def utf8Bytes (s : String) : List Nat := s.data.flatMap utf8Char

/-- Reduction modulo `2^32`, the word size of SHA-256 arithmetic. -/
def w32 (n : Nat) : Nat := n % 4294967296

/-- Rotate a 32-bit word right by `n` bits. -/
def rotr32 (x n : Nat) : Nat := w32 ((x >>> n) ||| (x <<< (32 - n)))

/-- SHA-256 big sigma-0. -/
def bsig0 (x : Nat) : Nat := rotr32 x 2 ^^^ rotr32 x 13 ^^^ rotr32 x 22

/-- SHA-256 big sigma-1. -/
def bsig1 (x : Nat) : Nat := rotr32 x 6 ^^^ rotr32 x 11 ^^^ rotr32 x 25

/-- SHA-256 small sigma-0. -/
def ssig0 (x : Nat) : Nat := rotr32 x 7 ^^^ rotr32 x 18 ^^^ (x >>> 3)

/-- SHA-256 small sigma-1. -/
def ssig1 (x : Nat) : Nat := rotr32 x 17 ^^^ rotr32 x 19 ^^^ (x >>> 10)

/-- SHA-256 choice function. -/
def chF (x y z : Nat) : Nat := (x &&& y) ^^^ ((x ^^^ 4294967295) &&& z)

/-- SHA-256 majority function. -/
def majF (x y z : Nat) : Nat := (x &&& y) ^^^ (x &&& z) ^^^ (y &&& z)

/-- The 64 SHA-256 round constants (FIPS 180-4). -/
def sha256K : List Nat :=
  [1116352408, 1899447441, 3049323471, 3921009573,
   961987163, 1508970993, 2453635748, 2870763221,
   3624381080, 310598401, 607225278, 1426881987,
   1925078388, 2162078206, 2614888103, 3248222580,
   3835390401, 4022224774, 264347078, 604807628,
   770255983, 1249150122, 1555081692, 1996064986,
   2554220882, 2821834349, 2952996808, 3210313671,
   3336571891, 3584528711, 113926993, 338241895,
   666307205, 773529912, 1294757372, 1396182291,
   1695183700, 1986661051, 2177026350, 2456956037,
   2730485921, 2820302411, 3259730800, 3345764771,
   3516065817, 3600352804, 4094571909, 275423344,
   430227734, 506948616, 659060556, 883997877,
   958139571, 1322822218, 1537002063, 1747873779,
   1955562222, 2024104815, 2227730452, 2361852424,
   2428436474, 2756734187, 3204031479, 3329325298]

/-- The eight-byte big-endian representation of `n` (the length field of
SHA-256 padding). -/
def lenBytes8 (n : Nat) : List Nat :=
  [n / 72057594037927936 % 256, n / 281474976710656 % 256, n / 1099511627776 % 256,
   n / 4294967296 % 256, n / 16777216 % 256, n / 65536 % 256, n / 256 % 256, n % 256]

/-- SHA-256 message padding: a `0x80` byte, zeros up to 56 mod 64, then
the message bit length as eight big-endian bytes. -/
def padMessage (msg : List Nat) : List Nat :=
  msg ++ [128] ++ List.replicate ((119 - msg.length % 64) % 64) 0 ++ lenBytes8 (8 * msg.length)

/-- Split a byte list into 64-byte blocks. -/
def chunks64 (l : List Nat) : List (List Nat) :=
  if l = [] then []
  else l.take 64 :: chunks64 (l.drop 64)
termination_by l.length
decreasing_by
  simp only [List.length_drop]
  have : l.length ≠ 0 := fun h => by
    exact absurd (List.eq_nil_of_length_eq_zero h) (by assumption)
  omega

/-- Group bytes into big-endian 32-bit words. -/
def bytesToWords : List Nat → List Nat
  | b0 :: b1 :: b2 :: b3 :: rest =>
    (b0 * 16777216 + b1 * 65536 + b2 * 256 + b3) :: bytesToWords rest
  | _ => []

/-- Extend the sixteen block words to the 64-entry message schedule. -/
def extendW (w0 : List Nat) : List Nat :=
  (List.range 48).foldl (fun w i =>
    w ++ [w32 (ssig1 (w.getD (i + 14) 0) + w.getD (i + 9) 0 + ssig0 (w.getD (i + 1) 0) +
      w.getD i 0)]) w0

/-- The eight 32-bit working variables of SHA-256. -/
structure Sha8 where
  a : Nat
  b : Nat
  c : Nat
  d : Nat
  e : Nat
  f : Nat
  g : Nat
  h : Nat

/-- One SHA-256 compression round. -/
def shaRound (s : Sha8) (ki wi : Nat) : Sha8 :=
  let t1 := w32 (s.h + bsig1 s.e + chF s.e s.f s.g + ki + wi)
  let t2 := w32 (bsig0 s.a + majF s.a s.b s.c)
  ⟨w32 (t1 + t2), s.a, s.b, s.c, w32 (s.d + t1), s.e, s.f, s.g⟩

/-- Compress one 64-byte block into the running state. -/
def compressBlock (st : Sha8) (block : List Nat) : Sha8 :=
  let w := extendW (bytesToWords block)
  let s := (sha256K.zip w).foldl (fun s p => shaRound s p.1 p.2) st
  ⟨w32 (st.a + s.a), w32 (st.b + s.b), w32 (st.c + s.c), w32 (st.d + s.d),
   w32 (st.e + s.e), w32 (st.f + s.f), w32 (st.g + s.g), w32 (st.h + s.h)⟩

/-- The SHA-256 initial hash value (FIPS 180-4). -/
def shaInit : Sha8 :=
  ⟨1779033703, 3144134277, 1013904242, 2773480762,
   1359893119, 2600822924, 528734635, 1541459225⟩

/-- Big-endian bytes of one 32-bit word. -/
def wordBytes (w : Nat) : List Nat :=
  [w / 16777216 % 256, w / 65536 % 256, w / 256 % 256, w % 256]

/-- The 32-byte SHA-256 digest of a byte sequence. -/
def sha256Bytes (msg : List Nat) : List Nat :=
  let fin := (chunks64 (padMessage msg)).foldl compressBlock shaInit
  wordBytes fin.a ++ wordBytes fin.b ++ wordBytes fin.c ++ wordBytes fin.d ++
    wordBytes fin.e ++ wordBytes fin.f ++ wordBytes fin.g ++ wordBytes fin.h

/-- Lowercase hexadecimal rendering of a digest (`hexdigest()`). -/
def sha256Hex (msg : List Nat) : String :=
  String.mk ((sha256Bytes msg).flatMap fun b => [hexDigitChar (b / 16 % 16), hexDigitChar (b % 16)])

/-- Translation of `create_hash` (app.py lines 21-35): dictionaries are
serialized with `json.dumps(..., sort_keys=True, separators=(',', ':'))`,
anything else falls back to `str(...)`; the two serializations are
concatenated with no separator, UTF-8 encoded, and hashed with SHA-256. -/
def create_hash (headers body : JVal) : String :=
  let headers_sorted : String :=
    match headers with
    | JVal.obj _ => dumps headers
    | _ => pyStr headers
  let body_sorted : String :=
    match body with
    | JVal.obj _ => dumps body
    | _ => pyStr body
  let combined := headers_sorted ++ body_sorted
  sha256Hex (utf8Bytes combined)

/-- The canonical per-document encoding used by `create_hash`, stated the
way the specification describes it (spec 4.1): structured `dumps`
serialization for mappings, the plain string representation for
non-mapping top-level input. -/
def encode (d : JVal) : String :=
  match d with
  | JVal.obj _ => dumps d
  | _ => pyStr d

mutual

/-- Equality of two documents as unordered trees, the relation of the
determinism requirement (spec 4.1): same scalar values, sequences equal
element by element in order, mappings with the same keys (each side free
of duplicate keys, as Python dictionaries are) carrying pairwise equal
values, irrespective of entry order. -/
def treeEq : JVal → JVal → Bool
  | .null, .null => true
  | .bool a, .bool b => a == b
  | .num a, .num b => a == b
  | .str a, .str b => a == b
  | .arr xs, .arr ys => treeEqList xs ys
  | .obj ps, .obj qs =>
    keysNodup ps && keysNodup qs && (ps.length == qs.length) && treeEqObj ps qs
  | _, _ => false

/-- Pointwise unordered-tree equality of sequences, order significant. -/
def treeEqList : List JVal → List JVal → Bool
  | [], [] => true
  | x :: xs, y :: ys => treeEq x y && treeEqList xs ys
  | _, _ => false

/-- Every entry of the first mapping is carried, up to unordered-tree
equality of values, by the second mapping. -/
def treeEqObj : List (String × JVal) → List (String × JVal) → Bool
  | [], _ => true
  | (k, v) :: rest, qs =>
    (match lookupKey k qs with
      | some w => treeEq v w
      | none => false) && treeEqObj rest qs

end

/-- Python truthiness of a JSON-like value: `None`, `False`, `0`, `""`,
`[]` and `\x7b\x7d` are falsy, everything else truthy.  This is what the
`or \x7b\x7d` on app.py lines 40 and 75 tests. -/
def pyTruthy : JVal → Bool
  | .null => false
  | .bool b => b
  | .num n => !(n == 0)
  | .str s => !(s == "")
  | .arr xs => !xs.isEmpty
  | .obj ps => !ps.isEmpty

/-- Translation of `body = request.get_json() or \x7b\x7d` (app.py line 40).
The external call `request.get_json()` is modelled as an `Option JVal`:
`none` when request parsing produced no document (absent or malformed
payload), `some v` when it parsed the payload to `v`.  Python's `or`
keeps `v` only when `v` is truthy. -/
def ingestBody (parsed : Option JVal) : JVal :=
  match parsed with
  | none => JVal.obj []
  | some v => if pyTruthy v then v else JVal.obj []

/-- ASCII lowercasing of one character, the effect of `str.lower()` on
the ASCII range that HTTP header names live in. -/
def lowerChar (c : Char) : Char :=
  if 65 ≤ c.toNat ∧ c.toNat ≤ 90 then Char.ofNat (c.toNat + 32) else c

/-- ASCII `str.lower()`. -/
def lowerString (s : String) : String := String.mk (s.data.map lowerChar)

/-- Python dictionary insertion `d[k] = v`: replace the value at an
existing key in place, otherwise append the new pair. -/
def dictInsert (d : List (String × JVal)) (k : String) (v : JVal) : List (String × JVal) :=
  if d.any fun p => p.1 == k then d.map fun p => if p.1 == k then (k, v) else p
  else d ++ [(k, v)]

/-- Build a Python dictionary from a pair sequence, later pairs winning,
as a dict comprehension does. -/
def dictOfPairs (ps : List (String × JVal)) : List (String × JVal) :=
  ps.foldl (fun d p => dictInsert d p.1 p.2) []

/-- Translation of the header normalization
`headers = \x7bk.lower(): v for k, v in request.headers.items()\x7d`
(app.py line 39): keys are lowercased, values kept, assembled into a
dictionary. -/
def ingestHeaders (raw : List (String × JVal)) : List (String × JVal) :=
  dictOfPairs (raw.map fun p => (lowerString p.1, p.2))

/-- One persisted incident row, with the stored `headers`/`body` text
columns read back through `json.loads` (the round trip is the identity on
documents, so the documents are carried directly). -/
structure Incident where
  id : Nat
  headers : List (String × JVal)
  body : List (String × JVal)
  hash_value : String

/-- One entry of a `/find` or `/find2` response:
`\x7b'id', 'headers', 'body', 'hash'\x7d` (app.py lines 92-97, 111-116). -/
structure SearchResult where
  id : Nat
  headers : List (String × JVal)
  body : List (String × JVal)
  hash : String

/-- Response-entry construction shared by both search endpoints. -/
def toResult (i : Incident) : SearchResult :=
  ⟨i.id, i.headers, i.body, i.hash_value⟩

/-- Satisfaction of one search term by an incident's document pair
(app.py lines 86-87): the key is present in `headers` with matching
stringified value, or present in `body` with matching stringified
value. -/
def termHit (headers body : List (String × JVal)) (k : String) (v : JVal) : Bool :=
  (match lookupKey k headers with
    | some hv => pyStr hv == pyStr v
    | none => false) ||
  (match lookupKey k body with
    | some bv => pyStr bv == pyStr v
    | none => false)

/-- The match predicate of `FindResource.post` (app.py lines 84-89): the
`for key, value in search_data.items()` loop with early `break` sets
`match` exactly when some term is satisfied. -/
def matchesPred (headers body : List (String × JVal)) (terms : List (String × JVal)) : Bool :=
  terms.any fun p => termHit headers body p.1 p.2

/-- The result-collection loop of `FindResource.post` (app.py lines
80-97): each stored incident is tested in retrieval order and appended to
`results` when it matches. -/
def findLoop (terms : List (String × JVal)) : List Incident → List SearchResult
  | [] => []
  | i :: rest =>
    if matchesPred i.headers i.body terms then toResult i :: findLoop terms rest
    else findLoop terms rest

/-- The `/find` endpoint body (app.py lines 75-99), after the request's
search document has been normalized by `request.get_json() or \x7b\x7d`:
scan all stored incidents and keep the matching ones. -/
def findPost (stored : List Incident) (terms : List (String × JVal)) : List SearchResult :=
  findLoop terms stored

/-- HTTP-level outcome of `Find2Resource.get`: either the 400 client
error or a 200 payload with a result list. -/
inductive HttpResp where
  | clientError (code : Nat) (msg : String)
  | ok (results : List SearchResult)

/-- The result-collection loop of `Find2Resource.get` (app.py lines
110-116). -/
def find2Loop : List Incident → List SearchResult
  | [] => []
  | i :: rest => toResult i :: find2Loop rest

/-- The `/find2` endpoint body (app.py lines 101-118):
`request.args.get('h')` is modelled as `Option String` (`none` when the
query parameter is absent); `if not hash_param` rejects both the absent
and the empty parameter with a 400 before the store is consulted, and
otherwise the store's `filter_by(hash_value=hash_param)` equality query
is answered. -/
def find2Get (stored : List Incident) (hashParam : Option String) : HttpResp :=
  match hashParam with
  | none => HttpResp.clientError 400 "Hash parameter is required"
  | some h =>
    if h = "" then HttpResp.clientError 400 "Hash parameter is required"
    else HttpResp.ok (find2Loop (stored.filter fun i => i.hash_value == h))

theorem keysNodup_iff : ∀ ps : List (String × JVal),
    keysNodup ps = true ↔ (ps.map Prod.fst).Nodup := by
  intro ps
  induction ps with
  | nil => simp [keysNodup]
  | cons p rest ih =>
    simp only [keysNodup, Bool.and_eq_true, Bool.not_eq_true', List.any_eq_false,
      beq_eq_false_iff_ne, ih, List.map_cons, List.nodup_cons]
    constructor
    · rintro ⟨h1, h2⟩
      refine ⟨fun hmem => ?_, h2⟩
      obtain ⟨q, hq, hq1⟩ := List.mem_map.mp hmem
      exact h1 q hq (by simpa using hq1)
    · rintro ⟨h1, h2⟩
      exact ⟨fun q hq hq1 => h1 (List.mem_map.mpr ⟨q, hq, by simpa using hq1⟩), h2⟩

theorem lookupKey_mem {k : String} {v : JVal} :
    ∀ {l : List (String × JVal)}, lookupKey k l = some v → (k, v) ∈ l := by
  intro l
  induction l with
  | nil => intro h; simp [lookupKey] at h
  | cons p rest ih =>
    obtain ⟨a, b⟩ := p
    intro h
    simp only [lookupKey] at h
    by_cases hk : a = k
    · subst hk
      simp only [beq_self_eq_true, if_true, Option.some.injEq] at h
      subst h
      exact List.mem_cons_self _ _
    · rw [if_neg (by simpa using hk)] at h
      exact List.mem_cons_of_mem _ (ih h)

theorem mem_lookupKey {k : String} {v : JVal} :
    ∀ {l : List (String × JVal)}, (l.map Prod.fst).Nodup → (k, v) ∈ l →
      lookupKey k l = some v := by
  intro l
  induction l with
  | nil => intro _ h; simp at h
  | cons p rest ih =>
    obtain ⟨a, b⟩ := p
    intro hnd hmem
    simp only [List.map_cons, List.nodup_cons] at hnd
    rcases List.mem_cons.mp hmem with h | h
    · rw [Prod.mk.injEq] at h
      obtain ⟨hk, hv⟩ := h
      subst hk; subst hv
      simp [lookupKey]
    · have hne : a ≠ k := by
        intro hk
        subst hk
        exact hnd.1 (List.mem_map.mpr ⟨(a, v), h, rfl⟩)
      have hbeq : (a == k) = false := by simpa using hne
      simp only [lookupKey, hbeq, Bool.false_eq_true, if_false]
      exact ih hnd.2 h

theorem entryPairs_eq_map : ∀ ps : List (String × JVal),
    entryPairs ps = ps.map fun p => (p.1, jsonQuote p.1 ++ ":" ++ dumps p.2) := by
  intro ps
  induction ps with
  | nil => rfl
  | cons p rest ih =>
    obtain ⟨k, v⟩ := p
    simp only [entryPairs, ih, List.map_cons]

theorem treeEqObj_iff : ∀ ps qs : List (String × JVal),
    treeEqObj ps qs = true ↔
      ∀ p ∈ ps, ∃ w, lookupKey p.1 qs = some w ∧ treeEq p.2 w = true := by
  intro ps qs
  induction ps with
  | nil => simp [treeEqObj]
  | cons p rest ih =>
    obtain ⟨k, v⟩ := p
    simp only [treeEqObj, Bool.and_eq_true, ih, List.mem_cons]
    cases hlk : lookupKey k qs with
    | none =>
      constructor
      · rintro ⟨h, _⟩; exact absurd h (by simp)
      · intro h
        obtain ⟨w, hw, _⟩ := h (k, v) (Or.inl rfl)
        rw [hlk] at hw
        cases hw
    | some w =>
      constructor
      · rintro ⟨h1, h2⟩ q hq
        rcases hq with hq | hq
        · subst hq; exact ⟨w, hlk, h1⟩
        · exact h2 q hq
      · intro h
        obtain ⟨w', hw', ht'⟩ := h (k, v) (Or.inl rfl)
        rw [hlk] at hw'
        cases hw'
        exact ⟨ht', fun q hq => h q (Or.inr hq)⟩

/-- Strict variant of the entry ordering, used to show that two sorted
entry lists with the same distinct keys coincide. -/
def keylt (p q : String × String) : Prop := strLeB p.1 q.1 = true ∧ p.1 ≠ q.1

instance : IsAntisymm (String × String) keylt :=
  ⟨fun _ _ h1 h2 => absurd (strLeB_antisymm h1.1 h2.1) h1.2⟩

theorem pairwiseAnd {α : Type _} {R S : α → α → Prop} :
    ∀ {l : List α}, l.Pairwise R → l.Pairwise S →
      l.Pairwise fun a b => R a b ∧ S a b := by
  intro l
  induction l with
  | nil => intro _ _; exact List.Pairwise.nil
  | cons x xs ih =>
    intro h1 h2
    rw [List.pairwise_cons] at h1 h2 ⊢
    exact ⟨fun b hb => ⟨h1.1 b hb, h2.1 b hb⟩, ih h1.2 h2.2⟩

theorem sorted_keylt_of_sorted_keyle {l : List (String × String)}
    (hs : List.Sorted keyle l) (hnd : (l.map Prod.fst).Nodup) :
    List.Sorted keylt l := by
  have hpw : l.Pairwise fun p q : String × String => p.1 ≠ q.1 :=
    List.pairwise_map.mp hnd
  exact (pairwiseAnd hs hpw).imp fun h => ⟨h.1, h.2⟩

theorem dumpsElems_single (x : JVal) : dumpsElems [x] = dumps x := by
  simp [dumpsElems]

theorem dumpsElems_cons_cons (x y : JVal) (rest : List JVal) :
    dumpsElems (x :: y :: rest) = dumps x ++ "," ++ dumpsElems (y :: rest) := by
  simp [dumpsElems]

theorem dumpsElems_congr : ∀ xs ys : List JVal, treeEqList xs ys = true →
    (∀ x ∈ xs, ∀ y, treeEq x y = true → dumps x = dumps y) →
    dumpsElems xs = dumpsElems ys := by
  intro xs
  induction xs with
  | nil =>
    intro ys h _
    cases ys with
    | nil => rfl
    | cons y ys => simp [treeEqList] at h
  | cons x xs ih =>
    intro ys h hp
    cases ys with
    | nil => simp [treeEqList] at h
    | cons y ys =>
      simp only [treeEqList, Bool.and_eq_true] at h
      have hxy : dumps x = dumps y := hp x (List.mem_cons_self _ _) y h.1
      have hrest : dumpsElems xs = dumpsElems ys :=
        ih ys h.2 fun x' hx' => hp x' (List.mem_cons_of_mem _ hx')
      cases xs with
      | nil =>
        cases ys with
        | nil => rw [dumpsElems_single, dumpsElems_single, hxy]
        | cons b bs => exact absurd h.2 (by simp [treeEqList])
      | cons a as =>
        cases ys with
        | nil => exact absurd h.2 (by simp [treeEqList])
        | cons b bs =>
          rw [dumpsElems_cons_cons, dumpsElems_cons_cons, hxy, hrest]

theorem treeEq_dumps_aux : ∀ (n : Nat) (d1 : JVal), sizeOf d1 ≤ n →
    ∀ d2, treeEq d1 d2 = true → dumps d1 = dumps d2 := by
  intro n
  induction n with
  | zero =>
    intro d1 hsz
    exfalso
    cases d1 <;> simp at hsz
  | succ n ih =>
    intro d1 hsz d2 ht
    cases d1 with
    | null =>
      cases d2 with
      | null => rfl
      | bool b => simp [treeEq] at ht
      | num m => simp [treeEq] at ht
      | str t => simp [treeEq] at ht
      | arr ys => simp [treeEq] at ht
      | obj qs => simp [treeEq] at ht
    | bool a =>
      cases d2 with
      | bool b => have hab : a = b := by simpa [treeEq] using ht
                  rw [hab]
      | null => simp [treeEq] at ht
      | num m => simp [treeEq] at ht
      | str t => simp [treeEq] at ht
      | arr ys => simp [treeEq] at ht
      | obj qs => simp [treeEq] at ht
    | num a =>
      cases d2 with
      | num b => have hab : a = b := by simpa [treeEq] using ht
                 rw [hab]
      | null => simp [treeEq] at ht
      | bool b => simp [treeEq] at ht
      | str t => simp [treeEq] at ht
      | arr ys => simp [treeEq] at ht
      | obj qs => simp [treeEq] at ht
    | str s =>
      cases d2 with
      | str t => have hab : s = t := by simpa [treeEq] using ht
                 rw [hab]
      | null => simp [treeEq] at ht
      | bool b => simp [treeEq] at ht
      | num m => simp [treeEq] at ht
      | arr ys => simp [treeEq] at ht
      | obj qs => simp [treeEq] at ht
    | arr xs =>
      cases d2 with
      | null => simp [treeEq] at ht
      | bool b => simp [treeEq] at ht
      | num m => simp [treeEq] at ht
      | str t => simp [treeEq] at ht
      | obj qs => simp [treeEq] at ht
      | arr ys =>
        have hlist : treeEqList xs ys = true := by simpa [treeEq] using ht
        have hx : ∀ x ∈ xs, ∀ y, treeEq x y = true → dumps x = dumps y := by
          intro x hxm y hxy
          apply ih x _ y hxy
          have h1 : sizeOf x < sizeOf xs := List.sizeOf_lt_of_mem hxm
          have h2 : sizeOf (JVal.arr xs) = 1 + sizeOf xs := by simp
          omega
        simp only [dumps]
        rw [dumpsElems_congr xs ys hlist hx]
    | obj ps =>
      cases d2 with
      | null => simp [treeEq] at ht
      | bool b => simp [treeEq] at ht
      | num m => simp [treeEq] at ht
      | str t => simp [treeEq] at ht
      | arr ys => simp [treeEq] at ht
      | obj qs =>
        simp only [treeEq, Bool.and_eq_true] at ht
        obtain ⟨⟨⟨hnp, hnq⟩, hlen⟩, hobj⟩ := ht
        have hndp : (ps.map Prod.fst).Nodup := (keysNodup_iff ps).mp hnp
        have hndq : (qs.map Prod.fst).Nodup := (keysNodup_iff qs).mp hnq
        have hlen' : ps.length = qs.length := by simpa using hlen
        have hobj' := (treeEqObj_iff ps qs).mp hobj
        have hvp : ∀ p ∈ ps, ∀ w, treeEq p.2 w = true → dumps p.2 = dumps w := by
          intro p hp w htw
          apply ih p.2 _ w htw
          have h1 : sizeOf p < sizeOf ps := List.sizeOf_lt_of_mem hp
          have h2 : sizeOf (JVal.obj ps) = 1 + sizeOf ps := by simp
          obtain ⟨k, v⟩ := p
          simp only [Prod.mk.sizeOf_spec] at h1 ⊢
          omega
        have hsub : entryPairs ps ⊆ entryPairs qs := by
          intro e he
          rw [entryPairs_eq_map] at he
          obtain ⟨p, hp, hpe⟩ := List.mem_map.mp he
          obtain ⟨w, hw, htw⟩ := hobj' p hp
          have hde : dumps p.2 = dumps w := hvp p hp w htw
          have hmemq : (p.1, w) ∈ qs := lookupKey_mem hw
          rw [entryPairs_eq_map]
          refine List.mem_map.mpr ⟨(p.1, w), hmemq, ?_⟩
          rw [← hpe, ← hde]
        have hfstp : (entryPairs ps).map Prod.fst = ps.map Prod.fst := by
          rw [entryPairs_eq_map, List.map_map]
          rfl
        have hfstq : (entryPairs qs).map Prod.fst = qs.map Prod.fst := by
          rw [entryPairs_eq_map, List.map_map]
          rfl
        have hnep : (entryPairs ps).Nodup := by
          apply List.Nodup.of_map Prod.fst
          rw [hfstp]
          exact hndp
        have hlene : (entryPairs qs).length ≤ (entryPairs ps).length := by
          rw [entryPairs_eq_map, entryPairs_eq_map, List.length_map, List.length_map, hlen']
        have hperm : List.Perm (entryPairs ps) (entryPairs qs) :=
          (List.subperm_of_subset hnep hsub).perm_of_length_le hlene
        have hp1 : List.Perm (sortPairs (entryPairs ps)) (sortPairs (entryPairs qs)) :=
          ((List.perm_insertionSort keyle _).trans hperm).trans
            (List.perm_insertionSort keyle _).symm
        have hs1 : List.Sorted keyle (sortPairs (entryPairs ps)) :=
          List.sorted_insertionSort keyle _
        have hs2 : List.Sorted keyle (sortPairs (entryPairs qs)) :=
          List.sorted_insertionSort keyle _
        have hnd1 : ((sortPairs (entryPairs ps)).map Prod.fst).Nodup := by
          have hper : List.Perm ((sortPairs (entryPairs ps)).map Prod.fst)
              ((entryPairs ps).map Prod.fst) :=
            (List.perm_insertionSort keyle (entryPairs ps)).map Prod.fst
          rw [hper.nodup_iff, hfstp]
          exact hndp
        have hnd2 : ((sortPairs (entryPairs qs)).map Prod.fst).Nodup := by
          have hper : List.Perm ((sortPairs (entryPairs qs)).map Prod.fst)
              ((entryPairs qs).map Prod.fst) :=
            (List.perm_insertionSort keyle (entryPairs qs)).map Prod.fst
          rw [hper.nodup_iff, hfstq]
          exact hndq
        have heq : sortPairs (entryPairs ps) = sortPairs (entryPairs qs) :=
          List.eq_of_perm_of_sorted hp1
            (sorted_keylt_of_sorted_keyle hs1 hnd1)
            (sorted_keylt_of_sorted_keyle hs2 hnd2)
        simp only [dumps]
        rw [heq]

/-- Unordered-tree-equal documents have identical canonical `dumps`
serializations: the key-order independence of `json.dumps` with
`sort_keys=True`, at every nesting level. -/
theorem treeEq_dumps {d1 d2 : JVal} (h : treeEq d1 d2 = true) : dumps d1 = dumps d2 :=
  treeEq_dumps_aux (sizeOf d1) d1 (Nat.le_refl _) d2 h

theorem utf8Bytes_append (s1 s2 : String) :
    utf8Bytes (s1 ++ s2) = utf8Bytes s1 ++ utf8Bytes s2 := by
  cases s1 with
  | mk l1 =>
    cases s2 with
    | mk l2 =>
      simp only [utf8Bytes]
      have hd : (String.mk l1 ++ String.mk l2).data = l1 ++ l2 := rfl
      rw [hd, List.flatMap_append]

theorem create_hash_encode (h b : JVal) :
    create_hash h b = sha256Hex (utf8Bytes (encode h ++ encode b)) := by
  cases h <;> cases b <;> rfl

theorem flatMapPair_length {α β : Type _} (f g : α → β) :
    ∀ l : List α, (l.flatMap fun a => [f a, g a]).length = 2 * l.length := by
  intro l
  induction l with
  | nil => rfl
  | cons a rest ih =>
    simp only [List.flatMap_cons, List.length_append, ih, List.length_cons]
    simp [Nat.mul_add, Nat.add_comm]

theorem sha256Bytes_length (msg : List Nat) : (sha256Bytes msg).length = 32 := by
  simp [sha256Bytes, wordBytes]

theorem hexDigitChar_mem (n : Nat) (h : n < 16) :
    hexDigitChar n ∈ ("0123456789abcdef").data := by
  interval_cases n <;> decide

theorem sha256Hex_length (msg : List Nat) : (sha256Hex msg).length = 64 := by
  show (String.mk _).length = 64
  show (List.flatMap _ _).length = 64
  rw [flatMapPair_length (fun b => hexDigitChar (b / 16 % 16)) (fun b => hexDigitChar (b % 16))
    (sha256Bytes msg), sha256Bytes_length]

theorem sha256Hex_chars (msg : List Nat) :
    ∀ c ∈ (sha256Hex msg).data, c ∈ ("0123456789abcdef").data := by
  intro c hc
  have hc' : c ∈ (sha256Bytes msg).flatMap fun b => [hexDigitChar (b / 16 % 16), hexDigitChar (b % 16)] := hc
  obtain ⟨b, _, hcb⟩ := List.mem_flatMap.mp hc'
  simp only [List.mem_cons, List.not_mem_nil, or_false] at hcb
  rcases hcb with hcb | hcb <;> subst hcb <;>
    exact hexDigitChar_mem _ (Nat.mod_lt _ (by omega))

/-- C1: documents that are equal as unordered trees (same keys and values
at every nesting level, list order identical, duplicate-free keys as in
Python dictionaries) receive identical canonical encodings, identical
encoded bytes, and therefore identical `create_hash` fingerprints, for
any permutation of mapping keys in headers or body. -/
theorem claim_C1 (h1 h2 b1 b2 : List (String × JVal))
    (hh : treeEq (JVal.obj h1) (JVal.obj h2) = true)
    (hb : treeEq (JVal.obj b1) (JVal.obj b2) = true) :
    encode (JVal.obj h1) = encode (JVal.obj h2) ∧
    utf8Bytes (encode (JVal.obj h1)) = utf8Bytes (encode (JVal.obj h2)) ∧
    encode (JVal.obj b1) = encode (JVal.obj b2) ∧
    create_hash (JVal.obj h1) (JVal.obj b1) = create_hash (JVal.obj h2) (JVal.obj b2) := by
  have e1 : dumps (JVal.obj h1) = dumps (JVal.obj h2) := treeEq_dumps hh
  have e2 : dumps (JVal.obj b1) = dumps (JVal.obj b2) := treeEq_dumps hb
  refine ⟨e1, ?_, e2, ?_⟩
  · show utf8Bytes (dumps (JVal.obj h1)) = utf8Bytes (dumps (JVal.obj h2))
    rw [e1]
  show sha256Hex (utf8Bytes (dumps (JVal.obj h1) ++ dumps (JVal.obj b1))) =
    sha256Hex (utf8Bytes (dumps (JVal.obj h2) ++ dumps (JVal.obj b2)))
  rw [e1, e2]

/-- Witness for C1 at the spec's own example: the headers document
written with keys in the two orders `q, t` and `t, q` and the body
document written with keys in the two orders `hello, z` and `z, hello`
are tree-equal and hash identically. -/
theorem claim_C1_witness :
    treeEq (JVal.obj [("q", JVal.num 1), ("t", JVal.num 15)])
        (JVal.obj [("t", JVal.num 15), ("q", JVal.num 1)]) = true ∧
    treeEq (JVal.obj [("hello", JVal.str "world"), ("z", JVal.str "6.456")])
        (JVal.obj [("z", JVal.str "6.456"), ("hello", JVal.str "world")]) = true ∧
    create_hash (JVal.obj [("q", JVal.num 1), ("t", JVal.num 15)])
        (JVal.obj [("hello", JVal.str "world"), ("z", JVal.str "6.456")]) =
      create_hash (JVal.obj [("t", JVal.num 15), ("q", JVal.num 1)])
        (JVal.obj [("z", JVal.str "6.456"), ("hello", JVal.str "world")]) :=
  ⟨by decide, by decide,
    (claim_C1 [("q", JVal.num 1), ("t", JVal.num 15)] [("t", JVal.num 15), ("q", JVal.num 1)]
      [("hello", JVal.str "world"), ("z", JVal.str "6.456")]
      [("z", JVal.str "6.456"), ("hello", JVal.str "world")]
      (by decide) (by decide)).2.2.2⟩

/-- C2: the fingerprint is the SHA-256 digest, rendered as 64 lowercase
hexadecimal characters, of the canonical encoding of the headers
concatenated directly (no separator) with the canonical encoding of the
body, in that order; `encode` serializes mappings key-sorted without
insignificant whitespace and falls back to the plain string
representation for non-mapping input. -/
theorem claim_C2 (h b : JVal) :
    create_hash h b = sha256Hex (utf8Bytes (encode h) ++ utf8Bytes (encode b)) ∧
    (create_hash h b).length = 64 ∧
    ∀ c ∈ (create_hash h b).data, c ∈ ("0123456789abcdef").data := by
  refine ⟨?_, ?_, ?_⟩
  · rw [create_hash_encode, utf8Bytes_append]
  · rw [create_hash_encode]
    exact sha256Hex_length _
  · rw [create_hash_encode]
    exact sha256Hex_chars _

theorem termHit_iff (headers body : List (String × JVal)) (k : String) (v : JVal) :
    termHit headers body k v = true ↔
      (∃ hv, lookupKey k headers = some hv ∧ pyStr hv = pyStr v) ∨
      (∃ bv, lookupKey k body = some bv ∧ pyStr bv = pyStr v) := by
  simp only [termHit, Bool.or_eq_true]
  cases hh : lookupKey k headers <;> cases hb : lookupKey k body <;> simp [hh, hb]

/-- C3: on a non-empty terms mapping, the match predicate holds exactly
when some `(key, expected)` term has its key present at top level in the
headers document with `str`-coerced value equality, or present at top
level in the body document with the same condition; the `str` coercion is
applied to both the stored and the query value. -/
theorem claim_C3 (headers body terms : List (String × JVal)) (_hne : terms ≠ []) :
    matchesPred headers body terms = true ↔
      ∃ k v, (k, v) ∈ terms ∧
        ((∃ hv, lookupKey k headers = some hv ∧ pyStr hv = pyStr v) ∨
         (∃ bv, lookupKey k body = some bv ∧ pyStr bv = pyStr v)) := by
  rw [matchesPred, List.any_eq_true]
  constructor
  · rintro ⟨p, hp, hhit⟩
    exact ⟨p.1, p.2, hp, (termHit_iff headers body p.1 p.2).mp hhit⟩
  · rintro ⟨k, v, hkv, hc⟩
    exact ⟨(k, v), hkv, (termHit_iff headers body k v).mpr hc⟩

/-- Witness for C3: a stored numeric `300` under key `k` matches the
query term `k: "300"` given as a string, through the symmetric `str`
coercion. -/
theorem claim_C3_witness :
    ([("k", JVal.str "300")] : List (String × JVal)) ≠ [] ∧
    matchesPred [("k", JVal.num 300)] [] [("k", JVal.str "300")] = true :=
  ⟨List.cons_ne_nil _ _,
    (claim_C3 [("k", JVal.num 300)] [] [("k", JVal.str "300")]
        (List.cons_ne_nil _ _)).mpr
      ⟨"k", JVal.str "300", List.mem_singleton.mpr rfl,
        Or.inl ⟨JVal.num 300, rfl, rfl⟩⟩⟩

/-- C4: the match predicate over an empty terms mapping is false for
every document pair, and consequently a `/find` search with empty terms
returns the empty result list whatever is stored. -/
theorem claim_C4 :
    (∀ headers body : List (String × JVal), matchesPred headers body [] = false) ∧
    (∀ stored : List Incident, findPost stored [] = []) := by
  constructor
  · intro headers body
    rfl
  · intro stored
    induction stored with
    | nil => rfl
    | cons i rest ih =>
      show findLoop [] (i :: rest) = []
      rw [findLoop]
      simp only [matchesPred, List.any_nil, Bool.false_eq_true, if_false]
      exact ih

/-- C5: the `/find` search returns exactly the stored incidents whose
documents satisfy the match predicate, each rendered once, in
store-retrieval order: the result list is the match-filtered store mapped
to response entries. -/
theorem claim_C5 (stored : List Incident) (terms : List (String × JVal)) :
    findPost stored terms =
      (stored.filter fun i => matchesPred i.headers i.body terms).map toResult := by
  induction stored with
  | nil => rfl
  | cons i rest ih =>
    show findLoop terms (i :: rest) = _
    rw [findLoop, List.filter_cons]
    by_cases hm : matchesPred i.headers i.body terms = true
    · simp only [hm, if_true, List.map_cons]
      rw [show findLoop terms rest = findPost rest terms from rfl, ih]
    · simp only [Bool.not_eq_true] at hm
      simp only [hm, Bool.false_eq_true, if_false]
      rw [show findLoop terms rest = findPost rest terms from rfl, ih]

theorem find2Loop_eq_map : ∀ l : List Incident, find2Loop l = l.map toResult := by
  intro l
  induction l with
  | nil => rfl
  | cons i rest ih =>
    rw [find2Loop, ih, List.map_cons]

/-- C6: the `/find2` lookup rejects a missing or empty fingerprint
parameter with the 400 client error `Hash parameter is required`,
independently of the store's contents (the store is never consulted on
that path), while a non-empty fingerprint matching no stored incident
produces the successful empty result list. -/
theorem claim_C6 :
    (∀ stored, find2Get stored none =
      HttpResp.clientError 400 "Hash parameter is required") ∧
    (∀ stored, find2Get stored (some "") =
      HttpResp.clientError 400 "Hash parameter is required") ∧
    (∀ stored h, h ≠ "" → (∀ i ∈ stored, i.hash_value ≠ h) →
      find2Get stored (some h) = HttpResp.ok []) := by
  refine ⟨fun _ => rfl, fun _ => rfl, ?_⟩
  intro stored h hne hnm
  simp only [find2Get, if_neg hne]
  rw [List.filter_eq_nil_iff.mpr fun i hi => by simpa using hnm i hi]
  rfl

/-- Witness for C6: a store holding one incident fingerprinted `abc`
answers the lookup of the unmatched fingerprint `zzz` with the successful
empty result list, and the missing and empty parameters with the 400
error. -/
theorem claim_C6_witness :
    find2Get [Incident.mk 1 [] [] "abc"] none =
      HttpResp.clientError 400 "Hash parameter is required" ∧
    find2Get [Incident.mk 1 [] [] "abc"] (some "") =
      HttpResp.clientError 400 "Hash parameter is required" ∧
    ("zzz" : String) ≠ "" ∧
    find2Get [Incident.mk 1 [] [] "abc"] (some "zzz") = HttpResp.ok [] :=
  ⟨claim_C6.1 _, claim_C6.2.1 _, by decide,
    claim_C6.2.2 [Incident.mk 1 [] [] "abc"] "zzz" (by decide)
      (by intro i hi; rw [List.mem_singleton.mp hi]; decide)⟩

/-- C7: a `/find2` lookup with a non-empty fingerprint returns exactly
the stored incidents whose fingerprint is equal to it as a full,
case-sensitive string, in store order; any incident whose fingerprint
differs — including one that merely extends the query as a prefix or
differs only in letter case — is never part of the response. -/
theorem claim_C7 (stored : List Incident) (h : String) (hne : h ≠ "") :
    find2Get stored (some h) =
      HttpResp.ok ((stored.filter fun i => i.hash_value == h).map toResult) ∧
    ∀ i : Incident, i.hash_value ≠ h →
      toResult i ∉ (stored.filter fun i => i.hash_value == h).map toResult := by
  constructor
  · simp only [find2Get, if_neg hne]
    rw [find2Loop_eq_map]
  · intro i hi hmem
    obtain ⟨j, hj, hje⟩ := List.mem_map.mp hmem
    have hjh : j.hash_value = h := by simpa using (List.mem_filter.mp hj).2
    apply hi
    have hhash : i.hash_value = j.hash_value := by
      have := congrArg SearchResult.hash hje
      simpa [toResult] using this.symm
    rw [hhash, hjh]

/-- Witness for C7: querying `aa` against a store holding fingerprints
`aa`, `aab` (the query as a strict prefix) and `AA` (case difference)
returns only the `aa` incident; the `aab` and `AA` incidents are
rejected. -/
theorem claim_C7_witness :
    ("aa" : String) ≠ "" ∧
    find2Get [Incident.mk 1 [] [] "aa", Incident.mk 2 [] [] "aab", Incident.mk 3 [] [] "AA"]
        (some "aa") =
      HttpResp.ok (([Incident.mk 1 [] [] "aa", Incident.mk 2 [] [] "aab",
          Incident.mk 3 [] [] "AA"].filter fun i => i.hash_value == "aa").map toResult) ∧
    toResult (Incident.mk 2 [] [] "aab") ∉
      (([Incident.mk 1 [] [] "aa", Incident.mk 2 [] [] "aab",
          Incident.mk 3 [] [] "AA"].filter fun i => i.hash_value == "aa").map toResult) ∧
    toResult (Incident.mk 3 [] [] "AA") ∉
      (([Incident.mk 1 [] [] "aa", Incident.mk 2 [] [] "aab",
          Incident.mk 3 [] [] "AA"].filter fun i => i.hash_value == "aa").map toResult) :=
  ⟨by decide,
    (claim_C7 _ "aa" (by decide)).1,
    (claim_C7 _ "aa" (by decide)).2 _ (by decide),
    (claim_C7 _ "aa" (by decide)).2 _ (by decide)⟩

theorem charOfNat_toNat {m : Nat} (hv : m.isValidChar) : (Char.ofNat m).toNat = m := by
  rw [Char.ofNat, dif_pos hv]
  simp [Char.ofNatAux, Char.toNat, UInt32.toNat]

theorem lowerChar_idem (c : Char) : lowerChar (lowerChar c) = lowerChar c := by
  by_cases h : 65 ≤ c.toNat ∧ c.toNat ≤ 90
  · have hv : (c.toNat + 32).isValidChar := Or.inl (by omega)
    have ht := charOfNat_toNat hv
    have h1 : lowerChar c = Char.ofNat (c.toNat + 32) := by rw [lowerChar, if_pos h]
    rw [h1, lowerChar, if_neg (by rw [ht]; omega)]
  · have h1 : lowerChar c = c := by rw [lowerChar, if_neg h]
    rw [h1, lowerChar, if_neg h]

theorem lowerString_idem (s : String) : lowerString (lowerString s) = lowerString s := by
  simp only [lowerString]
  refine congrArg String.mk ?_
  rw [List.map_map]
  exact List.map_congr_left fun c _ => lowerChar_idem c

theorem dictInsert_mem {d : List (String × JVal)} {k : String} {v : JVal} {q : String × JVal}
    (hq : q ∈ dictInsert d k v) : q ∈ d ∨ q = (k, v) := by
  unfold dictInsert at hq
  split at hq
  · obtain ⟨p, hp, hpe⟩ := List.mem_map.mp hq
    by_cases hpk : (p.1 == k) = true
    · rw [if_pos hpk] at hpe
      exact Or.inr hpe.symm
    · rw [if_neg hpk] at hpe
      exact Or.inl (hpe ▸ hp)
  · rcases List.mem_append.mp hq with h | h
    · exact Or.inl h
    · exact Or.inr (by simpa using h)

theorem foldl_dictInsert_mem : ∀ (ps acc : List (String × JVal)) (q : String × JVal),
    q ∈ ps.foldl (fun d p => dictInsert d p.1 p.2) acc → q ∈ acc ∨ q ∈ ps := by
  intro ps
  induction ps with
  | nil => intro acc q hq; exact Or.inl hq
  | cons p rest ih =>
    intro acc q hq
    simp only [List.foldl_cons] at hq
    rcases ih _ q hq with h | h
    · rcases dictInsert_mem h with h' | h'
      · exact Or.inl h'
      · right
        rw [h']
        exact List.mem_cons_self _ _
    · exact Or.inr (List.mem_cons_of_mem _ h)

theorem foldl_dictInsert_nodup : ∀ (ps acc : List (String × JVal)),
    ((acc ++ ps).map Prod.fst).Nodup →
    ps.foldl (fun d p => dictInsert d p.1 p.2) acc = acc ++ ps := by
  intro ps
  induction ps with
  | nil => intro acc _; simp
  | cons p rest ih =>
    intro acc hnd
    simp only [List.foldl_cons]
    have hdisj : ∀ q ∈ acc, ¬ q.1 = p.1 := by
      intro q hq hqp
      rw [List.map_append, List.nodup_append] at hnd
      exact hnd.2.2 (List.mem_map.mpr ⟨q, hq, rfl⟩)
        (by rw [hqp]; exact List.mem_map.mpr ⟨p, List.mem_cons_self _ _, rfl⟩)
    have hnotin : (acc.any fun q => q.1 == p.1) = false := by
      rw [List.any_eq_false]
      intro q hq
      simpa using hdisj q hq
    have hins : dictInsert acc p.1 p.2 = acc ++ [p] := by
      unfold dictInsert
      rw [if_neg (by rw [hnotin]; exact Bool.false_ne_true)]
    have hassoc : (acc ++ [p]) ++ rest = acc ++ p :: rest := by simp
    rw [hins, ih (acc ++ [p]) (by rw [hassoc]; exact hnd), hassoc]

theorem dictOfPairs_nodup_eq {ps : List (String × JVal)}
    (h : (ps.map Prod.fst).Nodup) : dictOfPairs ps = ps := by
  have := foldl_dictInsert_nodup ps [] (by simpa using h)
  simpa [dictOfPairs] using this

/-- C8: ingestion lowercases every header key and keeps the value: every
key stored by the header normalization is already lowercase and carries a
value submitted under some key with that lowercase form, and (when the
lowercased keys are distinct, as for ordinary header sets) a header
submitted as `(k, v)` is retrievable under the lowercased key `k`
with the untouched value `v`. -/
theorem claim_C8 (raw : List (String × JVal)) :
    (∀ p ∈ ingestHeaders raw,
      lowerString p.1 = p.1 ∧ ∃ q ∈ raw, lowerString q.1 = p.1 ∧ q.2 = p.2) ∧
    ((raw.map fun q => lowerString q.1).Nodup →
      ∀ k v, (k, v) ∈ raw → lookupKey (lowerString k) (ingestHeaders raw) = some v) := by
  constructor
  · intro p hp
    have hmem : p ∈ raw.map fun q => (lowerString q.1, q.2) := by
      have hp2 : p ∈ (raw.map fun q => (lowerString q.1, q.2)).foldl
          (fun d r => dictInsert d r.1 r.2) [] := hp
      have hfold := foldl_dictInsert_mem (raw.map fun q => (lowerString q.1, q.2)) [] p hp2
      exact hfold.resolve_left (by simp)
    obtain ⟨q, hq, hqe⟩ := List.mem_map.mp hmem
    refine ⟨?_, q, hq, ?_, ?_⟩
    · rw [← hqe]
      exact lowerString_idem q.1
    · rw [← hqe]
    · rw [← hqe]
  · intro hnd k v hkv
    have hmap : ((raw.map fun q => (lowerString q.1, q.2)).map Prod.fst).Nodup := by
      rw [List.map_map]
      exact hnd
    have heq : ingestHeaders raw = raw.map fun q => (lowerString q.1, q.2) := by
      unfold ingestHeaders
      exact dictOfPairs_nodup_eq hmap
    rw [heq]
    exact mem_lookupKey hmap (List.mem_map.mpr ⟨(k, v), hkv, rfl⟩)

/-- Witness for C8 at the spec's example: the header
`X-Test-Header: TestValue` is stored under `x-test-header` with the value
`TestValue` unchanged. -/
theorem claim_C8_witness :
    lowerString "X-Test-Header" = "x-test-header" ∧
    lookupKey "x-test-header" (ingestHeaders [("X-Test-Header", JVal.str "TestValue")]) =
      some (JVal.str "TestValue") :=
  ⟨rfl,
    (claim_C8 [("X-Test-Header", JVal.str "TestValue")]).2 (by decide)
      "X-Test-Header" (JVal.str "TestValue") (List.mem_singleton.mpr rfl)⟩

/-- Counterexample to C9 as stated: the body payload `false` parses
successfully and is present, yet it is not stored unchanged — the
`or \x7b\x7d` of app.py line 40 replaces every Python-falsy parsed value,
not only the absent or unparseable payload, with the empty mapping. -/
theorem claim_C9_counterexample :
    ¬ (ingestBody (some (JVal.bool false)) = JVal.bool false) ∧
    ingestBody (some (JVal.bool false)) = JVal.obj [] := by
  refine ⟨fun h => ?_, rfl⟩
  rw [show ingestBody (some (JVal.bool false)) = JVal.obj [] from rfl] at h
  exact JVal.noConfusion h

/-- C9 amended: the stored body is the parsed payload exactly when that
payload parses to a Python-truthy value; it is the empty mapping when the
payload is absent, unparseable, or parses to a falsy value (`null`,
`false`, `0`, the empty string, the empty sequence, the empty mapping). -/
theorem claim_C9 :
    ingestBody none = JVal.obj [] ∧
    (∀ v, pyTruthy v = true → ingestBody (some v) = v) ∧
    (∀ v, pyTruthy v = false → ingestBody (some v) = JVal.obj []) := by
  refine ⟨rfl, ?_, ?_⟩ <;> intro v hv <;> simp [ingestBody, hv]

/-- Witness for C9 amended: a truthy body (`5`) is stored verbatim, a
falsy body (`false`) is replaced by the empty mapping. -/
theorem claim_C9_witness :
    pyTruthy (JVal.num 5) = true ∧ ingestBody (some (JVal.num 5)) = JVal.num 5 ∧
    pyTruthy (JVal.bool false) = false ∧
    ingestBody (some (JVal.bool false)) = JVal.obj [] :=
  ⟨rfl, claim_C9.2.1 _ rfl, rfl, claim_C9.2.2 _ rfl⟩

/-- C10: the two header inputs given as the plain string `\x7b"a":1\x7d`
and as the mapping with the single entry `a: 1` are not tree-equal, yet
the string fallback and the mapping serialization of `create_hash`
produce the same pre-digest text, so with equal bodies the two
fingerprints coincide without any hash-function collision. -/
theorem claim_C10 :
    treeEq (JVal.str "\x7b\"a\":1\x7d") (JVal.obj [("a", JVal.num 1)]) = false ∧
    encode (JVal.str "\x7b\"a\":1\x7d") = encode (JVal.obj [("a", JVal.num 1)]) ∧
    create_hash (JVal.str "\x7b\"a\":1\x7d") (JVal.obj []) =
      create_hash (JVal.obj [("a", JVal.num 1)]) (JVal.obj []) := by
  refine ⟨rfl, rfl, ?_⟩
  exact congrArg (fun z => sha256Hex (utf8Bytes z)) rfl
